import Mathlib

/-!
Renamer plugin (UI_WorkEditor): naming policy and batch planner.

A shallow embedding of `UI_WorkEditor.cpp`: the prefix lookup `GetPrefixForAsset`,
the check `HasCorrectPrefix`, the scan `ScanForMissingPrefixes`, the preview
`UpdatePreviewList`, the commit `RenameSelectedAssets` and the enabled-state of the
"Rename Assets" button, followed by the properties proved about them.

Engine types are modelled by the data the plugin reads from them:

* `FString` is `String`; `FName`s are carried as the string `ToString()` gives.
* `TArray<T>` is `List T`. A `TArray` holds fewer than `2^31` elements (its `Num()` is an
  `int32`), so the loop counter `i` and `i + 1` never leave the `int32` range and are
  natural numbers here.
* `TSharedPtr<SEditableTextBox>` is `Option String`: `none` is an invalid pointer, `some t`
  a text box whose text is `t`.
-/

namespace Renamer

/-! Section: Engine data. -/

/-- Class object (`UClass`): `Lineage` holds the name of the class itself followed by the
names of its super classes. -/
structure UClass where
  Lineage : List String
deriving DecidableEq

/-- Ancestry test `UClass::IsChildOf(Base::StaticClass())`: the class is `Base` or descends
from it. -/
def UClass.IsChildOf (c : UClass) (base : String) : Bool :=
  c.Lineage.contains base

/-- Class path (`FTopLevelAssetPath`): package name and asset (class) name. -/
structure FTopLevelAssetPath where
  PackageName : String
  AssetName : String
deriving DecidableEq

/-- Asset descriptor (`FAssetData`), reduced to what the plugin reads: the object path, the
simple name, the class path, and `Class`, the outcome of `GetClass()` (`none` when the class
does not resolve). -/
structure FAssetData where
  ObjectPath : String
  AssetName : String
  AssetClassPath : FTopLevelAssetPath
  Class : Option UClass
deriving DecidableEq

/-- Default-constructed descriptor `FAssetData()`. -/
def FAssetData.empty : FAssetData :=
  { ObjectPath := "", AssetName := "", AssetClassPath := ⟨"", ""⟩, Class := none }

/-- Comparison `FName == TEXT("...")`: name comparisons of the engine ignore letter case. -/
def FName.EqualsText (name text : String) : Bool :=
  name.data.map Char.toLower == text.data.map Char.toLower

/-- Test `FString::IsEmpty()`: the length is zero. -/
def FString.IsEmpty (s : String) : Bool :=
  s.length == 0

/-- Character loop of a case-insensitive comparison over the length of the second string:
`true` when every character of `p` equals, letter case ignored, the character of `s` at the
same position; the end of `s` differs from any character. -/
def FString.startsWithLoop : List Char → List Char → Bool
  | _, [] => true
  | [], _ :: _ => false
  | c :: cs, p :: ps => c.toLower == p.toLower && FString.startsWithLoop cs ps

/-- Call `S.StartsWith(P, ESearchCase::IgnoreCase)`: `P` is not empty and the first
`P.Len()` characters of `S` equal `P`, letter case ignored. -/
def FString.StartsWith (s p : String) : Bool :=
  decide (p.length > 0) && FString.startsWithLoop s.data p.data

/-- Digits of the conversion `%d` for a non-negative value: the decimal digits, most
significant first, no leading zero (`0` renders as one digit). The first argument bounds
the number of divisions; `n` itself is always enough. -/
def decimalDigits : Nat → Nat → List Char
  | 0, n => [Nat.digitChar (n % 10)]
  | fuel + 1, n =>
      if n < 10 then [Nat.digitChar n]
      else decimalDigits fuel (n / 10) ++ [Nat.digitChar (n % 10)]

/-- Conversion `%02d` of a non-negative value: its decimal digits, padded on the left with
`0` up to a minimum width of two; a value of three or more digits is rendered in full. -/
def format02d (v : Nat) : List Char :=
  let digits := decimalDigits v v
  List.replicate (2 - digits.length) '0' ++ digits

/-- Call `FString::Printf(TEXT("_%02d"), v)` for a non-negative `v`. -/
def FString.Printf_02d (v : Nat) : String :=
  "_" ++ String.mk (format02d v)

/-! Section: Plugin data. -/

/-- Row of the preview list (`FPreviewItem`). -/
structure FPreviewItem where
  DisplayName : String
  Asset : FAssetData
deriving DecidableEq

/-- Rename request (`FAssetRenameData`) as built by the plugin: the asset whose object
`GetAsset()` loads, the package path and the new name. -/
structure FAssetRenameData where
  Asset : FAssetData
  NewPackagePath : String
  NewName : String
deriving DecidableEq

/-- Asset registry query (`FARFilter`), the fields the plugin sets. -/
structure FARFilter where
  bRecursivePaths : Bool
  PackagePaths : List String
  ClassPaths : List FTopLevelAssetPath

/-- Host editor as the plugin sees it: the content-browser selection
(`GetSelectedAssets`), the registry query (`GetAssets`) and
`FPackageName::GetLongPackagePath`. -/
structure Host where
  SelectedAssets : List FAssetData
  GetAssets : FARFilter → List FAssetData
  GetLongPackagePath : String → String

/-- Module state (`FUI_WorkEditorModule`): the rename text box and the preview rows. The
list view is only told to refresh and is left out. -/
structure FUI_WorkEditorModule where
  RenameTextBox : Option String
  PreviewItems : List FPreviewItem

/-! Section: Naming policy. -/

/-- Prefix lookup `GetPrefixForAsset` (UI_WorkEditor.cpp, lines 58-93). -/
def GetPrefixForAsset (AssetData : FAssetData) : String :=
  let Class := AssetData.Class
  if FName.EqualsText AssetData.AssetClassPath.AssetName "WidgetBlueprint" then "WBP_"
  else
    match Class with
    | none => ""
    | some Class =>
        if Class.IsChildOf "Blueprint" then "BP_"
        else if Class.IsChildOf "StaticMesh" then "SM_"
        else if Class.IsChildOf "Material" then "M_"
        else if Class.IsChildOf "Texture2D" then "T_"
        else ""

/-- Check `HasCorrectPrefix` (lines 95-104). -/
def HasCorrectPrefix (Asset : FAssetData) : Bool :=
  let ExpectedPrefix := GetPrefixForAsset Asset
  let Name := Asset.AssetName
  if FString.IsEmpty ExpectedPrefix then true
  else FString.StartsWith Name ExpectedPrefix

/-! Section: Batch planner. -/

/-- Population scanned by `ScanForMissingPrefixes` (lines 110-127): the selection, or, when
nothing is selected, the registry answer for every asset under `/Game` of the five
classes. -/
def ScanForMissingPrefixes.AssetsToScan (host : Host) : List FAssetData :=
  let AssetsToScan := host.SelectedAssets
  if AssetsToScan.length == 0 then
    let Filter : FARFilter :=
      { bRecursivePaths := true
        PackagePaths := ["/Game"]
        ClassPaths :=
          [⟨"/Script/Engine", "Blueprint"⟩, ⟨"/Script/Engine", "StaticMesh"⟩,
           ⟨"/Script/Engine", "Material"⟩, ⟨"/Script/Engine", "Texture2D"⟩,
           ⟨"/Script/UMG", "WidgetBlueprint"⟩] }
    AssetsToScan ++ host.GetAssets Filter
  else AssetsToScan

/-- Range loop of `ScanForMissingPrefixes` (lines 132-141) over the assets still to visit,
`PreviewItems` being the rows added so far. -/
def ScanForMissingPrefixes.loop : List FAssetData → List FPreviewItem → List FPreviewItem
  | [], PreviewItems => PreviewItems
  | Asset :: rest, PreviewItems =>
      if !HasCorrectPrefix Asset then
        ScanForMissingPrefixes.loop rest
          (PreviewItems ++ [{ Asset := Asset, DisplayName := Asset.AssetName }])
      else ScanForMissingPrefixes.loop rest PreviewItems

/-- Scan `ScanForMissingPrefixes` (lines 106-147). -/
def ScanForMissingPrefixes (host : Host) (m : FUI_WorkEditorModule) : FUI_WorkEditorModule :=
  let AssetsToScan := ScanForMissingPrefixes.AssetsToScan host
  let PreviewItems : List FPreviewItem := []
  { m with PreviewItems := ScanForMissingPrefixes.loop AssetsToScan PreviewItems }

/-- Counting loop of `UpdatePreviewList` (lines 382-398): `rest` is the part of
`SelectedAssets` from index `i` on, so its head is `SelectedAssets[i]`. -/
def UpdatePreviewList.loop (SelectedAssets : List FAssetData) (BaseName : String) :
    List FAssetData → Nat → List FPreviewItem → List FPreviewItem
  | [], _, PreviewItems => PreviewItems
  | Asset :: rest, i, PreviewItems =>
      let Prefix := GetPrefixForAsset Asset
      let NewName := Prefix ++ BaseName
      let NewName :=
        if SelectedAssets.length > 1 then NewName ++ FString.Printf_02d (i + 1) else NewName
      UpdatePreviewList.loop SelectedAssets BaseName rest (i + 1)
        (PreviewItems ++ [{ DisplayName := NewName, Asset := Asset }])

/-- Preview `UpdatePreviewList` (lines 360-405). -/
def UpdatePreviewList (host : Host) (m : FUI_WorkEditorModule) : FUI_WorkEditorModule :=
  let PreviewItems : List FPreviewItem := []
  let SelectedAssets := host.SelectedAssets
  if SelectedAssets.length == 0 then
    { m with
      PreviewItems :=
        PreviewItems ++ [{ DisplayName := "No asset selected.", Asset := FAssetData.empty }] }
  else
    let BaseName :=
      match m.RenameTextBox with
      | some text => text
      | none => ""
    { m with
      PreviewItems := UpdatePreviewList.loop SelectedAssets BaseName SelectedAssets 0 PreviewItems }

/-- Counting loop of `RenameSelectedAssets` (lines 333-352): `rest` is the part of
`SelectedAssets` from index `i` on, so its head is `SelectedAssets[i]`. -/
def RenameSelectedAssets.loop (host : Host) (SelectedAssets : List FAssetData)
    (BaseName : String) :
    List FAssetData → Nat → List FAssetRenameData → List FAssetRenameData
  | [], _, RenameDataArray => RenameDataArray
  | Asset :: rest, i, RenameDataArray =>
      let Prefix := GetPrefixForAsset Asset
      let NewName := Prefix ++ BaseName
      let NewName :=
        if SelectedAssets.length > 1 then NewName ++ FString.Printf_02d (i + 1) else NewName
      let PackagePath := host.GetLongPackagePath Asset.ObjectPath
      RenameSelectedAssets.loop host SelectedAssets BaseName rest (i + 1)
        (RenameDataArray ++
          [{ Asset := Asset, NewPackagePath := PackagePath, NewName := NewName }])

/-- Commit `RenameSelectedAssets` (lines 310-358). The result lists the arrays handed to
`AssetTools.RenameAssets`, one per call; `none` stands for the dereference of an invalid
`RenameTextBox`. -/
def RenameSelectedAssets (host : Host) (m : FUI_WorkEditorModule) :
    Option (List (List FAssetRenameData)) :=
  let SelectedAssets := host.SelectedAssets
  if SelectedAssets.length == 0 then some []
  else
    match m.RenameTextBox with
    | none => none
    | some BaseName =>
        if FString.IsEmpty BaseName then some []
        else
          let RenameDataArray : List FAssetRenameData := []
          some [RenameSelectedAssets.loop host SelectedAssets BaseName SelectedAssets 0
            RenameDataArray]

/-- Enabled-state of the "Rename Assets" button (`IsEnabled_Lambda`, lines 190-203). -/
def RenameButton_IsEnabled (host : Host) (m : FUI_WorkEditorModule) : Bool :=
  match m.RenameTextBox with
  | none => false
  | some text =>
      if FString.IsEmpty text then false
      else
        let SelectedAssets := host.SelectedAssets
        decide (SelectedAssets.length > 0)

/-! Section: Sample data. -/

/-- Static mesh class. -/
def classStaticMesh : UClass := ⟨["StaticMesh", "StreamableRenderAsset", "Object"]⟩

/-- Material class. -/
def classMaterial : UClass := ⟨["Material", "MaterialInterface", "Object"]⟩

/-- Two-dimensional texture class. -/
def classTexture2D : UClass := ⟨["Texture2D", "Texture", "StreamableRenderAsset", "Object"]⟩

/-- Blueprint class. -/
def classBlueprint : UClass := ⟨["Blueprint", "BlueprintCore", "Object"]⟩

/-- Widget blueprint class, a descendant of the blueprint class. -/
def classWidgetBlueprint : UClass :=
  ⟨["WidgetBlueprint", "BaseWidgetBlueprint", "Blueprint", "BlueprintCore", "Object"]⟩

/-- Asset of an engine class with the given simple name, placed under `/Game`. -/
def mkAsset (pkg cls : String) (c : Option UClass) (name : String) : FAssetData :=
  { ObjectPath := "/Game/" ++ name ++ "." ++ name
    AssetName := name
    AssetClassPath := ⟨pkg, cls⟩
    Class := c }

/-- Static mesh named `Rock`. -/
def assetRock : FAssetData := mkAsset "/Script/Engine" "StaticMesh" (some classStaticMesh) "Rock"

/-- Material named `M_Grass`. -/
def assetGrass : FAssetData := mkAsset "/Script/Engine" "Material" (some classMaterial) "M_Grass"

/-- Texture named `T_Wood`. -/
def assetWood : FAssetData := mkAsset "/Script/Engine" "Texture2D" (some classTexture2D) "T_Wood"

/-- Blueprint named `MyActor`. -/
def assetMyActor : FAssetData :=
  mkAsset "/Script/Engine" "Blueprint" (some classBlueprint) "MyActor"

/-- One hundred textures `Plank00`, ..., `Plank99`. -/
def plankTextures : List FAssetData :=
  (List.range 100).map fun k =>
    mkAsset "/Script/Engine" "Texture2D" (some classTexture2D)
      ("Plank" ++ String.mk (format02d k))

/-- Host with the given selection, an empty registry and a package-path function that
returns its argument. -/
def hostOf (sel : List FAssetData) : Host :=
  { SelectedAssets := sel, GetAssets := fun _ => [], GetLongPackagePath := fun p => p }

/-- Module state with a text box holding `text` and no preview rows. -/
def moduleOf (text : String) : FUI_WorkEditorModule :=
  { RenameTextBox := some text, PreviewItems := [] }

/-! Section: Specification-level definitions. -/

/-- Padding `zeroPad(v, 2)` of the specification: the `%02d` rendering of `v`. -/
def zeroPad2 (v : Nat) : String :=
  String.mk (format02d v)

/-- Proposed name of the specification for the asset at 0-based index `i` of a batch of `N`
assets: `prefixFor(asset) + baseName`, followed by `"_" + zeroPad(i+1, 2)` iff `N > 1`. -/
def proposedName (N : Nat) (baseName : String) (asset : FAssetData) (i : Nat) : String :=
  if N > 1 then GetPrefixForAsset asset ++ baseName ++ "_" ++ zeroPad2 (i + 1)
  else GetPrefixForAsset asset ++ baseName

/-- Rule predicate "widget blueprint": the class-path name is `WidgetBlueprint`. -/
def isWidgetBlueprint (a : FAssetData) : Bool :=
  FName.EqualsText a.AssetClassPath.AssetName "WidgetBlueprint"

/-- Rule predicate "`base` ancestry": the class resolves and is `base` or descends from it. -/
def hasAncestry (base : String) (a : FAssetData) : Bool :=
  match a.Class with
  | some c => c.IsChildOf base
  | none => false

/-- Ordered rule table of the specification. -/
def prefixRules : List ((FAssetData → Bool) × String) :=
  [(isWidgetBlueprint, "WBP_"), (hasAncestry "Blueprint", "BP_"),
   (hasAncestry "StaticMesh", "SM_"), (hasAncestry "Material", "M_"),
   (hasAncestry "Texture2D", "T_")]

/-- First-match lookup of the specification: the prefix of the first rule whose predicate
holds, the empty string when none does. -/
def prefixFor (a : FAssetData) : String :=
  match prefixRules.find? (fun r => r.1 a) with
  | some r => r.2
  | none => ""

/-- Case-insensitive "starts with" of the specification: the name, letter case ignored,
begins with the prefix, letter case ignored. -/
def startsWithIgnoringCase (name pre : String) : Prop :=
  ∃ rest, name.data.map Char.toLower = pre.data.map Char.toLower ++ rest

/-- Value of a digit string read in base ten. -/
def decimalValue (ds : List Char) : Nat :=
  ds.foldl (fun acc c => 10 * acc + (c.toNat - 48)) 0

/-! Section: Lemmas on the engine functions. -/

theorem startsWithLoop_iff (p s : List Char) :
    FString.startsWithLoop s p = true ↔
      ∃ rest, s.map Char.toLower = p.map Char.toLower ++ rest := by
  induction p generalizing s with
  | nil => simp [FString.startsWithLoop]
  | cons c cs ih =>
    cases s with
    | nil => simp [FString.startsWithLoop]
    | cons d ds =>
      simp only [FString.startsWithLoop, Bool.and_eq_true, beq_iff_eq, ih, List.map_cons,
        List.cons_append, List.cons.injEq]
      constructor
      · rintro ⟨h, rest, hr⟩
        exact ⟨rest, h, hr⟩
      · rintro ⟨rest, h, hr⟩
        exact ⟨h, rest, hr⟩

theorem startsWithLoop_length (p s : List Char) (h : FString.startsWithLoop s p = true) :
    p.length ≤ s.length := by
  obtain ⟨rest, hr⟩ := (startsWithLoop_iff p s).1 h
  have := congrArg List.length hr
  simp at this
  omega

theorem isEmpty_iff (s : String) : FString.IsEmpty s = true ↔ s = "" := by
  cases s with
  | mk d =>
    cases d with
    | nil => simp [FString.IsEmpty, String.length]
    | cons c cs =>
      simp [FString.IsEmpty, String.length, String.ext_iff]

theorem digitChar_value (d : Nat) (h : d < 10) : (Nat.digitChar d).toNat - 48 = d := by
  interval_cases d <;> rfl

theorem digitChar_ne_underscore (d : Nat) (h : d < 10) : Nat.digitChar d ≠ '_' := by
  interval_cases d <;> decide

theorem decimalValue_append_single (ds : List Char) (c : Char) :
    decimalValue (ds ++ [c]) = 10 * decimalValue ds + (c.toNat - 48) := by
  simp [decimalValue, List.foldl_append]

theorem decimalValue_zeros (k : Nat) (ds : List Char) :
    decimalValue (List.replicate k '0' ++ ds) = decimalValue ds := by
  induction k with
  | zero => simp
  | succ k ih =>
    have h0 : decimalValue (List.replicate k '0' ++ ds) = decimalValue ds := ih
    simp only [decimalValue, List.replicate_succ, List.cons_append, List.foldl_cons] at h0 ⊢
    exact h0

theorem decimalValue_decimalDigits (fuel n : Nat) (h : n ≤ fuel) :
    decimalValue (decimalDigits fuel n) = n := by
  induction fuel generalizing n with
  | zero =>
    obtain rfl : n = 0 := by omega
    rfl
  | succ f ih =>
    unfold decimalDigits
    split
    · next hlt =>
      simp [decimalValue, digitChar_value n hlt]
    · next hge =>
      rw [decimalValue_append_single, ih (n / 10) (by omega),
        digitChar_value (n % 10) (Nat.mod_lt _ (by decide))]
      omega

theorem decimalDigits_no_underscore (fuel n : Nat) : '_' ∉ decimalDigits fuel n := by
  induction fuel generalizing n with
  | zero =>
    simp only [decimalDigits, List.mem_singleton]
    exact fun h => digitChar_ne_underscore (n % 10) (Nat.mod_lt _ (by decide)) h.symm
  | succ f ih =>
    unfold decimalDigits
    split
    · next hlt =>
      simp only [List.mem_singleton]
      exact fun h => digitChar_ne_underscore n hlt h.symm
    · next hge =>
      simp only [List.mem_append, List.mem_singleton, not_or]
      exact ⟨ih _, fun h => digitChar_ne_underscore (n % 10) (Nat.mod_lt _ (by decide)) h.symm⟩

theorem decimalDigits_length_pos (fuel n : Nat) : 0 < (decimalDigits fuel n).length := by
  cases fuel with
  | zero => simp [decimalDigits]
  | succ f =>
    unfold decimalDigits
    split <;> simp

theorem format02d_value (v : Nat) : decimalValue (format02d v) = v := by
  simp only [format02d, decimalValue_zeros]
  exact decimalValue_decimalDigits v v (Nat.le_refl v)

theorem format02d_injective (v w : Nat) (h : format02d v = format02d w) : v = w := by
  rw [← format02d_value v, ← format02d_value w, h]

theorem format02d_no_underscore (v : Nat) : '_' ∉ format02d v := by
  simp only [format02d, List.mem_append, not_or]
  refine ⟨?_, decimalDigits_no_underscore v v⟩
  intro h
  have := List.eq_of_mem_replicate h
  exact absurd this (by decide)

theorem format02d_small (v : Nat) (h : v ≤ 99) :
    format02d v = [Nat.digitChar (v / 10), Nat.digitChar (v % 10)] := by
  interval_cases v <;> rfl

theorem format02d_large (v : Nat) (h : 100 ≤ v) :
    format02d v = decimalDigits v v ∧ 3 ≤ (format02d v).length := by
  have hlen : 3 ≤ (decimalDigits v v).length := by
    obtain ⟨f, rfl⟩ : ∃ f, v = f + 2 := ⟨v - 2, by omega⟩
    have h1 : decimalDigits (f + 2) (f + 2) =
        decimalDigits (f + 1) ((f + 2) / 10) ++ [Nat.digitChar ((f + 2) % 10)] := by
      rw [decimalDigits, if_neg (by omega)]
    have h2 : decimalDigits (f + 1) ((f + 2) / 10) =
        decimalDigits f ((f + 2) / 10 / 10) ++ [Nat.digitChar ((f + 2) / 10 % 10)] := by
      rw [decimalDigits, if_neg (by omega)]
    rw [h1, h2]
    have := decimalDigits_length_pos f ((f + 2) / 10 / 10)
    simp
    omega
  have hfmt : format02d v = decimalDigits v v := by
    simp only [format02d]
    rw [show 2 - (decimalDigits v v).length = 0 by omega]
    simp
  exact ⟨hfmt, hfmt ▸ hlen⟩

/-- Strings that end in an underscore followed by underscore-free tails have equal tails. -/
theorem tail_after_underscore (x y a b : List Char) (ha : '_' ∉ a) (hb : '_' ∉ b)
    (h : x ++ '_' :: a = y ++ '_' :: b) : a = b := by
  have key : ∀ (u v p q : List Char), '_' ∉ u → '_' ∉ v →
      u ++ '_' :: p = v ++ '_' :: q → u = v := by
    intro u
    induction u with
    | nil =>
      intro v p q _ hv heq
      cases v with
      | nil => rfl
      | cons c cs =>
        simp only [List.nil_append, List.cons_append, List.cons.injEq] at heq
        exact absurd heq.1 (fun hc => hv (hc ▸ List.mem_cons_self _ _))
    | cons c cs ih =>
      intro v p q hu hv heq
      cases v with
      | nil =>
        simp only [List.nil_append, List.cons_append, List.cons.injEq] at heq
        exact absurd heq.1 (fun hc => hu (hc ▸ List.mem_cons_self _ _))
      | cons d ds =>
        simp only [List.cons_append, List.cons.injEq] at heq
        have hcs : '_' ∉ cs := fun hm => hu (List.mem_cons_of_mem _ hm)
        have hds : '_' ∉ ds := fun hm => hv (List.mem_cons_of_mem _ hm)
        rw [heq.1, ih ds p q hcs hds heq.2]
  have hrev := congrArg List.reverse h
  simp only [List.reverse_append, List.reverse_cons, List.append_assoc, List.singleton_append]
    at hrev
  have := key a.reverse b.reverse x.reverse y.reverse (by simpa using ha) (by simpa using hb) hrev
  simpa using this

theorem digitChar_isDigit (d : Nat) (h : d < 10) : (Nat.digitChar d).isDigit = true := by
  interval_cases d <;> rfl

theorem decimalDigits_isDigit (fuel n : Nat) :
    ∀ c ∈ decimalDigits fuel n, c.isDigit = true := by
  induction fuel generalizing n with
  | zero =>
    intro c hc
    simp only [decimalDigits, List.mem_singleton] at hc
    rw [hc]
    exact digitChar_isDigit _ (Nat.mod_lt _ (by decide))
  | succ f ih =>
    intro c hc
    unfold decimalDigits at hc
    split at hc
    · next hlt =>
      simp only [List.mem_singleton] at hc
      rw [hc]
      exact digitChar_isDigit _ hlt
    · next hge =>
      simp only [List.mem_append, List.mem_singleton] at hc
      rcases hc with hc | hc
      · exact ih _ c hc
      · rw [hc]
        exact digitChar_isDigit _ (Nat.mod_lt _ (by decide))

theorem format02d_isDigit (v : Nat) : ∀ c ∈ format02d v, c.isDigit = true := by
  intro c hc
  simp only [format02d, List.mem_append] at hc
  rcases hc with hc | hc
  · rw [List.eq_of_mem_replicate hc]
    rfl
  · exact decimalDigits_isDigit v v c hc

/-! Section: Lemmas on the loops. -/

theorem proposedName_eq_body (N : Nat) (B : String) (a : FAssetData) (i : Nat) :
    (if N > 1 then GetPrefixForAsset a ++ B ++ FString.Printf_02d (i + 1)
      else GetPrefixForAsset a ++ B) = proposedName N B a i := by
  unfold proposedName FString.Printf_02d zeroPad2
  split
  · rw [String.append_assoc (GetPrefixForAsset a ++ B)]
  · rfl

theorem scan_loop_eq (l : List FAssetData) (acc : List FPreviewItem) :
    ScanForMissingPrefixes.loop l acc =
      acc ++ (l.filter (fun a => !HasCorrectPrefix a)).map
        (fun a => { DisplayName := a.AssetName, Asset := a }) := by
  induction l generalizing acc with
  | nil => simp [ScanForMissingPrefixes.loop]
  | cons a rest ih =>
    unfold ScanForMissingPrefixes.loop
    by_cases h : HasCorrectPrefix a = true
    · simp [h, ih]
    · have h2 : HasCorrectPrefix a = false := by simpa using h
      simp [h2, ih]

theorem preview_loop_eq (S : List FAssetData) (B : String) (rest : List FAssetData) (i : Nat)
    (acc : List FPreviewItem) :
    UpdatePreviewList.loop S B rest i acc =
      acc ++ (rest.enumFrom i).map
        (fun p => { DisplayName := proposedName S.length B p.2 p.1, Asset := p.2 }) := by
  induction rest generalizing i acc with
  | nil => simp [UpdatePreviewList.loop]
  | cons a rest ih =>
    unfold UpdatePreviewList.loop
    simp only [proposedName_eq_body, ih, List.enumFrom_cons, List.map_cons, List.append_assoc,
      List.singleton_append]

theorem rename_loop_eq (host : Host) (S : List FAssetData) (B : String)
    (rest : List FAssetData) (i : Nat) (acc : List FAssetRenameData) :
    RenameSelectedAssets.loop host S B rest i acc =
      acc ++ (rest.enumFrom i).map
        (fun p => { Asset := p.2, NewPackagePath := host.GetLongPackagePath p.2.ObjectPath,
                    NewName := proposedName S.length B p.2 p.1 }) := by
  induction rest generalizing i acc with
  | nil => simp [RenameSelectedAssets.loop]
  | cons a rest ih =>
    unfold RenameSelectedAssets.loop
    simp only [proposedName_eq_body, ih, List.enumFrom_cons, List.map_cons, List.append_assoc,
      List.singleton_append]

theorem preview_items_eq (host : Host) (m : FUI_WorkEditorModule) (B : String)
    (hsel : host.SelectedAssets ≠ []) (htext : m.RenameTextBox = some B) :
    (UpdatePreviewList host m).PreviewItems =
      (host.SelectedAssets.enumFrom 0).map
        (fun p => { DisplayName := proposedName host.SelectedAssets.length B p.2 p.1,
                    Asset := p.2 }) := by
  have hlen : ¬ host.SelectedAssets.length = 0 := fun h => hsel (List.length_eq_zero.1 h)
  simp [UpdatePreviewList, hlen, htext, preview_loop_eq]

theorem preview_items_eq_none (host : Host) (m : FUI_WorkEditorModule)
    (hsel : host.SelectedAssets ≠ []) (htext : m.RenameTextBox = none) :
    (UpdatePreviewList host m).PreviewItems =
      (host.SelectedAssets.enumFrom 0).map
        (fun p => { DisplayName := proposedName host.SelectedAssets.length "" p.2 p.1,
                    Asset := p.2 }) := by
  have hlen : ¬ host.SelectedAssets.length = 0 := fun h => hsel (List.length_eq_zero.1 h)
  simp [UpdatePreviewList, hlen, htext, preview_loop_eq]

theorem preview_getElem (S : List FAssetData) (N : Nat) (B : String) (i : Nat) :
    ((S.enumFrom 0).map
        (fun p => ({ DisplayName := proposedName N B p.2 p.1, Asset := p.2 } : FPreviewItem)))[i]? =
      S[i]?.map (fun a => { DisplayName := proposedName N B a i, Asset := a }) := by
  rw [List.getElem?_map, List.getElem?_enumFrom]
  cases S[i]? <;> simp

theorem rename_getElem (host : Host) (S : List FAssetData) (N : Nat) (B : String) (i : Nat) :
    ((S.enumFrom 0).map
        (fun p => ({ Asset := p.2, NewPackagePath := host.GetLongPackagePath p.2.ObjectPath,
                     NewName := proposedName N B p.2 p.1 } : FAssetRenameData)))[i]? =
      S[i]?.map (fun a => { Asset := a, NewPackagePath := host.GetLongPackagePath a.ObjectPath,
                            NewName := proposedName N B a i }) := by
  rw [List.getElem?_map, List.getElem?_enumFrom]
  cases S[i]? <;> simp

theorem proposedName_starts (N : Nat) (B : String) (a : FAssetData) (i : Nat) :
    ∃ rest, proposedName N B a i = GetPrefixForAsset a ++ rest := by
  unfold proposedName
  split
  · exact ⟨B ++ ("_" ++ zeroPad2 (i + 1)), by simp [String.append_assoc]⟩
  · exact ⟨B, rfl⟩

theorem proposedName_injective (N : Nat) (B : String) (a b : FAssetData) (i j : Nat)
    (hN : 1 < N) (h : proposedName N B a i = proposedName N B b j) : i = j := by
  unfold proposedName at h
  rw [if_pos hN, if_pos hN] at h
  have hd := congrArg String.data h
  simp only [String.data_append, zeroPad2] at hd
  rw [List.append_assoc _ ['_'], List.append_assoc _ ['_'], List.singleton_append,
    List.singleton_append] at hd
  have := tail_after_underscore _ _ _ _ (format02d_no_underscore (i + 1))
    (format02d_no_underscore (j + 1)) hd
  have := format02d_injective _ _ this
  omega

theorem renamed_accepted (a : FAssetData) (name path rest : String)
    (h : name = GetPrefixForAsset a ++ rest) :
    HasCorrectPrefix { a with AssetName := name, ObjectPath := path } = true := by
  have hp : GetPrefixForAsset { a with AssetName := name, ObjectPath := path } =
      GetPrefixForAsset a := rfl
  unfold HasCorrectPrefix
  simp only [hp]
  by_cases he : FString.IsEmpty (GetPrefixForAsset a) = true
  · simp [he]
  · have hpos : 0 < (GetPrefixForAsset a).length := by
      simp only [FString.IsEmpty, beq_iff_eq] at he
      omega
    simp only [he, Bool.false_eq_true, if_false, FString.StartsWith, Bool.and_eq_true,
      decide_eq_true_eq, startsWithLoop_iff]
    exact ⟨hpos, rest.data.map Char.toLower, by rw [h, String.data_append, List.map_append]⟩

theorem scan_rows_rejected (host : Host) (m : FUI_WorkEditorModule) (row : FPreviewItem)
    (h : row ∈ (ScanForMissingPrefixes host m).PreviewItems) :
    HasCorrectPrefix row.Asset = false := by
  simp only [ScanForMissingPrefixes, scan_loop_eq, List.nil_append, List.mem_map,
    List.mem_filter] at h
  obtain ⟨a, ⟨_, ha⟩, rfl⟩ := h
  simpa using ha

/-! Section: Properties. -/

/-- C1: for a selection of `N ≥ 1` assets and any base name, the preview rows and the rename
requests of the commit loop both number `N`, entry `i` refers to the `i`-th selected asset, and
its name is `prefixFor(asset_i) + baseName`, followed by `"_" + zeroPad(i+1, 2)` exactly when
`N > 1`. -/
theorem rename_plan_entries (host : Host) (m : FUI_WorkEditorModule) (baseName : String)
    (hsel : host.SelectedAssets ≠ []) (htext : m.RenameTextBox = some baseName) :
    (UpdatePreviewList host m).PreviewItems.length = host.SelectedAssets.length ∧
    (RenameSelectedAssets.loop host host.SelectedAssets baseName host.SelectedAssets 0
        []).length = host.SelectedAssets.length ∧
    ∀ (i : Nat) (asset : FAssetData), host.SelectedAssets[i]? = some asset →
      (∃ item, (UpdatePreviewList host m).PreviewItems[i]? = some item ∧ item.Asset = asset ∧
        item.DisplayName =
          (if host.SelectedAssets.length > 1
            then GetPrefixForAsset asset ++ baseName ++ "_" ++ zeroPad2 (i + 1)
            else GetPrefixForAsset asset ++ baseName)) ∧
      (∃ r, (RenameSelectedAssets.loop host host.SelectedAssets baseName host.SelectedAssets 0
          [])[i]? = some r ∧ r.Asset = asset ∧
        r.NewName =
          (if host.SelectedAssets.length > 1
            then GetPrefixForAsset asset ++ baseName ++ "_" ++ zeroPad2 (i + 1)
            else GetPrefixForAsset asset ++ baseName)) := by
  rw [preview_items_eq host m baseName hsel htext, rename_loop_eq]
  refine ⟨by simp, by simp, ?_⟩
  intro i asset hi
  rw [List.nil_append, preview_getElem, rename_getElem, hi]
  exact ⟨⟨_, rfl, rfl, rfl⟩, ⟨_, rfl, rfl, rfl⟩⟩

/-- Witness of C1: a static mesh `Rock` and a material `M_Grass` with base name `Hero` are
proposed `SM_Hero_01` and `M_Hero_02`. -/
theorem rename_plan_entries_witness :
    (hostOf [assetRock, assetGrass]).SelectedAssets ≠ [] ∧
    (moduleOf "Hero").RenameTextBox = some "Hero" ∧
    (UpdatePreviewList (hostOf [assetRock, assetGrass]) (moduleOf "Hero")).PreviewItems =
      [{ DisplayName := "SM_Hero_01", Asset := assetRock },
       { DisplayName := "M_Hero_02", Asset := assetGrass }] ∧
    (UpdatePreviewList (hostOf [assetRock, assetGrass]) (moduleOf "Hero")).PreviewItems.length =
      (hostOf [assetRock, assetGrass]).SelectedAssets.length :=
  ⟨by decide, rfl, by decide,
    (rename_plan_entries (hostOf [assetRock, assetGrass]) (moduleOf "Hero") "Hero"
      (by decide) rfl).1⟩

/-- C4: after `ScanForMissingPrefixes` the preview rows are exactly the assets of the scanned
population for which `HasCorrectPrefix` is false, each as often as the population holds it and
in the population's order, whatever rows were there before; each row displays the current name
of its asset. Scanning the one blueprint `MyActor` returns that one entry. -/
theorem scan_result :
    (∀ (host : Host) (m : FUI_WorkEditorModule),
      (ScanForMissingPrefixes host m).PreviewItems =
        ((ScanForMissingPrefixes.AssetsToScan host).filter
            (fun a => !HasCorrectPrefix a)).map
          (fun a => { DisplayName := a.AssetName, Asset := a })) ∧
    (∀ (m : FUI_WorkEditorModule),
      (ScanForMissingPrefixes (hostOf [assetMyActor]) m).PreviewItems =
        [{ DisplayName := "MyActor", Asset := assetMyActor }]) := by
  have h : ∀ (host : Host) (m : FUI_WorkEditorModule),
      (ScanForMissingPrefixes host m).PreviewItems =
        ((ScanForMissingPrefixes.AssetsToScan host).filter
            (fun a => !HasCorrectPrefix a)).map
          (fun a => { DisplayName := a.AssetName, Asset := a }) := by
    intro host m
    simp [ScanForMissingPrefixes, scan_loop_eq]
  refine ⟨h, fun m => ?_⟩
  rw [h]
  decide

/-- C10: for a non-empty selection and a non-empty base name, `RenameSelectedAssets` hands
one array to the host rename operation, and its (asset, new name) pairs equal, entry by entry,
the (asset, displayed name) pairs of the rows `UpdatePreviewList` builds. -/
theorem preview_agrees_with_commit (host : Host) (m : FUI_WorkEditorModule)
    (baseName : String) (hsel : host.SelectedAssets ≠ [])
    (htext : m.RenameTextBox = some baseName) (hbase : baseName ≠ "") :
    ∃ requests, RenameSelectedAssets host m = some [requests] ∧
      requests.map (fun r => (r.Asset, r.NewName)) =
        (UpdatePreviewList host m).PreviewItems.map (fun p => (p.Asset, p.DisplayName)) := by
  have hlen : ¬ host.SelectedAssets.length = 0 := fun h => hsel (List.length_eq_zero.1 h)
  have hne : FString.IsEmpty baseName = false := by
    cases hb : FString.IsEmpty baseName with
    | false => rfl
    | true => exact absurd ((isEmpty_iff baseName).1 hb) hbase
  refine ⟨_, by simp [RenameSelectedAssets, hlen, htext, hne]; rfl, ?_⟩
  rw [preview_items_eq host m baseName hsel htext, rename_loop_eq]
  simp [Function.comp_def]

/-- Witness of C10 on the selection `Rock`, `M_Grass` with base name `Hero`. -/
theorem preview_agrees_with_commit_witness :
    (hostOf [assetRock, assetGrass]).SelectedAssets ≠ [] ∧
    (moduleOf "Hero").RenameTextBox = some "Hero" ∧ "Hero" ≠ "" ∧
    ∃ requests,
      RenameSelectedAssets (hostOf [assetRock, assetGrass]) (moduleOf "Hero") = some [requests] ∧
      requests.map (fun r => (r.Asset, r.NewName)) =
        (UpdatePreviewList (hostOf [assetRock, assetGrass]) (moduleOf "Hero")).PreviewItems.map
          (fun p => (p.Asset, p.DisplayName)) :=
  ⟨by decide, rfl, by decide,
    preview_agrees_with_commit (hostOf [assetRock, assetGrass]) (moduleOf "Hero") "Hero"
      (by decide) rfl (by decide)⟩

/-- C2: `GetPrefixForAsset` is the first-match lookup over the ordered rule table (widget
blueprint, then Blueprint, StaticMesh, Material, Texture2D ancestry) and is empty when no rule
matches; a descriptor whose class-path name is `WidgetBlueprint` gets `WBP_` and not `BP_`,
whatever its class is and whether or not it resolves. -/
theorem first_match_lookup (a : FAssetData) :
    GetPrefixForAsset a = prefixFor a ∧
    ((∀ r ∈ prefixRules, r.1 a = false) → GetPrefixForAsset a = "") ∧
    (a.AssetClassPath.AssetName = "WidgetBlueprint" →
      GetPrefixForAsset a = "WBP_" ∧ GetPrefixForAsset a ≠ "BP_") := by
  refine ⟨?_, ?_, ?_⟩
  · unfold GetPrefixForAsset prefixFor prefixRules
    simp only [List.find?, isWidgetBlueprint, hasAncestry]
    cases FName.EqualsText a.AssetClassPath.AssetName "WidgetBlueprint" with
    | true => rfl
    | false =>
      cases a.Class with
      | none => rfl
      | some c =>
        cases h1 : c.IsChildOf "Blueprint" <;> cases h2 : c.IsChildOf "StaticMesh" <;>
          cases h3 : c.IsChildOf "Material" <;> cases h4 : c.IsChildOf "Texture2D" <;>
          simp [h1, h2, h3, h4]
  · intro h
    have hw := h (isWidgetBlueprint, "WBP_") (by simp [prefixRules])
    have hb := h (hasAncestry "Blueprint", "BP_") (by simp [prefixRules])
    have hs := h (hasAncestry "StaticMesh", "SM_") (by simp [prefixRules])
    have hm := h (hasAncestry "Material", "M_") (by simp [prefixRules])
    have ht := h (hasAncestry "Texture2D", "T_") (by simp [prefixRules])
    simp only [isWidgetBlueprint, hasAncestry] at hw hb hs hm ht
    unfold GetPrefixForAsset
    cases hc : a.Class with
    | none => simp [hw]
    | some c =>
      rw [hc] at hb hs hm ht
      simp at hb hs hm ht
      simp [hw, hb, hs, hm, ht]
  · intro h
    have hw : FName.EqualsText a.AssetClassPath.AssetName "WidgetBlueprint" = true := by
      rw [h]
      decide
    have hp : GetPrefixForAsset a = "WBP_" := by
      unfold GetPrefixForAsset
      simp [hw]
    rw [hp]
    exact ⟨rfl, by decide⟩

/-- Witness of C2: a widget blueprint whose class descends from Blueprint gets `WBP_`. -/
theorem first_match_lookup_witness :
    (mkAsset "/Script/UMG" "WidgetBlueprint" (some classWidgetBlueprint)
        "Menu").AssetClassPath.AssetName = "WidgetBlueprint" ∧
    classWidgetBlueprint.IsChildOf "Blueprint" = true ∧
    GetPrefixForAsset
        (mkAsset "/Script/UMG" "WidgetBlueprint" (some classWidgetBlueprint) "Menu") = "WBP_" ∧
    GetPrefixForAsset
        (mkAsset "/Script/UMG" "WidgetBlueprint" (some classWidgetBlueprint) "Menu") ≠ "BP_" :=
  ⟨rfl, by decide,
    (first_match_lookup
      (mkAsset "/Script/UMG" "WidgetBlueprint" (some classWidgetBlueprint) "Menu")).2.2 rfl⟩

/-- C3: `HasCorrectPrefix` is true exactly when the required prefix is empty or the current
name starts with it, letter case ignored; so a name that begins with the prefix in any letter
case is accepted, and a name shorter than the prefix is rejected. -/
theorem correct_prefix_iff (Asset : FAssetData) :
    (HasCorrectPrefix Asset = true ↔
      GetPrefixForAsset Asset = "" ∨
        startsWithIgnoringCase Asset.AssetName (GetPrefixForAsset Asset)) ∧
    (∀ pre rest : String, Asset.AssetName = pre ++ rest →
      pre.data.map Char.toLower = (GetPrefixForAsset Asset).data.map Char.toLower →
      HasCorrectPrefix Asset = true) ∧
    (Asset.AssetName.length < (GetPrefixForAsset Asset).length →
      HasCorrectPrefix Asset = false) := by
  have hiff : HasCorrectPrefix Asset = true ↔
      GetPrefixForAsset Asset = "" ∨
        startsWithIgnoringCase Asset.AssetName (GetPrefixForAsset Asset) := by
    unfold HasCorrectPrefix startsWithIgnoringCase
    by_cases he : GetPrefixForAsset Asset = ""
    · simp [he, (isEmpty_iff "").2 rfl]
    · have hf : FString.IsEmpty (GetPrefixForAsset Asset) = false := by
        cases hb : FString.IsEmpty (GetPrefixForAsset Asset) with
        | false => rfl
        | true => exact absurd ((isEmpty_iff _).1 hb) he
      have hpos : 0 < (GetPrefixForAsset Asset).length := by
        simp only [FString.IsEmpty, beq_eq_false_iff_ne, ne_eq] at hf
        omega
      simp only [hf, Bool.false_eq_true, if_false, FString.StartsWith, Bool.and_eq_true,
        decide_eq_true_eq, startsWithLoop_iff, he, false_or]
      exact ⟨fun h => h.2, fun h => ⟨hpos, h⟩⟩
  refine ⟨hiff, ?_, ?_⟩
  · intro pre rest hname hpre
    refine hiff.2 (Or.inr ⟨rest.data.map Char.toLower, ?_⟩)
    rw [hname, String.data_append, List.map_append, hpre]
  · intro hlt
    cases hb : HasCorrectPrefix Asset with
    | false => rfl
    | true =>
      exfalso
      rcases hiff.1 hb with he | ⟨rest, hr⟩
      · rw [he] at hlt
        simp at hlt
      · have := congrArg List.length hr
        simp only [List.length_map, List.length_append] at this
        have hlt2 : Asset.AssetName.data.length < (GetPrefixForAsset Asset).data.length := hlt
        omega

/-- Witness of C3: the static mesh named `sm_rock` is accepted (its name is `sm_` followed
by `rock`), and the static mesh named `SM`, shorter than `SM_`, is rejected. -/
theorem correct_prefix_iff_witness :
    HasCorrectPrefix
        (mkAsset "/Script/Engine" "StaticMesh" (some classStaticMesh) "sm_rock") = true ∧
    (mkAsset "/Script/Engine" "StaticMesh" (some classStaticMesh) "SM").AssetName.length <
      (GetPrefixForAsset
        (mkAsset "/Script/Engine" "StaticMesh" (some classStaticMesh) "SM")).length ∧
    HasCorrectPrefix (mkAsset "/Script/Engine" "StaticMesh" (some classStaticMesh) "SM") = false :=
  ⟨(correct_prefix_iff
      (mkAsset "/Script/Engine" "StaticMesh" (some classStaticMesh) "sm_rock")).2.1
      "sm_" "rock" (by decide) (by decide),
    by decide,
    (correct_prefix_iff
      (mkAsset "/Script/Engine" "StaticMesh" (some classStaticMesh) "SM")).2.2 (by decide)⟩

/-- C5, amended: with exactly one asset the proposed name carries no ordinal suffix; with
`N > 1` assets entry `i` ends in an underscore followed by the decimal rendering of `i + 1`
padded with zeros to a minimum width of two: exactly two digits when `i + 1 ≤ 99`, the
unpadded digits, three or more, when `i + 1 ≥ 100`. -/
theorem ordinal_rendering (host : Host) (m : FUI_WorkEditorModule) (baseName : String)
    (htext : m.RenameTextBox = some baseName) (hsel : host.SelectedAssets ≠ [])
    (i : Nat) (item : FPreviewItem)
    (hitem : (UpdatePreviewList host m).PreviewItems[i]? = some item) :
    (host.SelectedAssets.length = 1 →
      item.DisplayName = GetPrefixForAsset item.Asset ++ baseName) ∧
    (host.SelectedAssets.length > 1 →
      item.DisplayName =
        GetPrefixForAsset item.Asset ++ baseName ++ "_" ++ String.mk (format02d (i + 1)) ∧
      (∀ c ∈ format02d (i + 1), c.isDigit = true) ∧
      decimalValue (format02d (i + 1)) = i + 1 ∧
      (i + 1 ≤ 99 →
        format02d (i + 1) = [Nat.digitChar ((i + 1) / 10), Nat.digitChar ((i + 1) % 10)]) ∧
      (100 ≤ i + 1 →
        format02d (i + 1) = decimalDigits (i + 1) (i + 1) ∧
          3 ≤ (format02d (i + 1)).length)) := by
  rw [preview_items_eq host m baseName hsel htext, preview_getElem] at hitem
  cases hs : host.SelectedAssets[i]? with
  | none => simp [hs] at hitem
  | some a =>
    rw [hs] at hitem
    simp only [Option.map_some', Option.some.injEq] at hitem
    subst hitem
    refine ⟨fun h1 => ?_, fun hN => ⟨?_, format02d_isDigit _, format02d_value _,
      format02d_small _, format02d_large _⟩⟩
    · simp [proposedName, h1]
    · simp [proposedName, hN, zeroPad2]

/-- Witness of C5 (amended): a single texture with base name `Wood` is proposed `T_Wood`. -/
theorem ordinal_rendering_witness :
    (moduleOf "Wood").RenameTextBox = some "Wood" ∧
    (hostOf [assetWood]).SelectedAssets ≠ [] ∧
    (UpdatePreviewList (hostOf [assetWood]) (moduleOf "Wood")).PreviewItems[0]? =
      some { DisplayName := "T_Wood", Asset := assetWood } ∧
    (hostOf [assetWood]).SelectedAssets.length = 1 ∧
    ({ DisplayName := "T_Wood", Asset := assetWood } : FPreviewItem).DisplayName =
      GetPrefixForAsset assetWood ++ "Wood" :=
  ⟨rfl, by decide, by decide, rfl,
    (ordinal_rendering (hostOf [assetWood]) (moduleOf "Wood") "Wood" rfl (by decide) 0
      { DisplayName := "T_Wood", Asset := assetWood } (by decide)).1 rfl⟩

/-- Counterexample to C5 as stated: in a batch of one hundred textures with base name `Wood`
the entry at index 99 is named `T_Wood_100`, which is not the prefix and base name followed
by an underscore and two digits. -/
theorem hundredth_entry_three_digits :
    ∃ item,
      (UpdatePreviewList (hostOf plankTextures) (moduleOf "Wood")).PreviewItems[99]? = some item ∧
      item.DisplayName = "T_Wood_100" ∧
      ¬ ∃ d1 d2 : Char,
        item.DisplayName = GetPrefixForAsset item.Asset ++ "Wood" ++ "_" ++ String.mk [d1, d2] := by
  have hsel : (hostOf plankTextures).SelectedAssets ≠ [] := by decide
  have h1 : (hostOf plankTextures).SelectedAssets[99]? =
      some (mkAsset "/Script/Engine" "Texture2D" (some classTexture2D) "Plank99") := by decide
  have h2 : (hostOf plankTextures).SelectedAssets.length = 100 := by decide
  refine ⟨{ DisplayName := "T_Wood_100",
            Asset := mkAsset "/Script/Engine" "Texture2D" (some classTexture2D) "Plank99" },
    ?_, rfl, ?_⟩
  · rw [preview_items_eq (hostOf plankTextures) (moduleOf "Wood") "Wood" hsel rfl,
      preview_getElem, h1, h2]
    decide
  · rintro ⟨d1, d2, h⟩
    have hlen := congrArg String.length h
    have hp : GetPrefixForAsset
        (mkAsset "/Script/Engine" "Texture2D" (some classTexture2D) "Plank99") = "T_" := by
      decide
    rw [hp, String.length_append, String.length_append, String.length_append] at hlen
    have h10 : (10 : Nat) = 2 + 4 + 1 + 2 := hlen
    omega

/-- Counterexample to C6 as stated: for the selection `Rock`, `M_Grass` and an empty base
name the preview proposes `SM__01` and `M__02`, not the prefixes alone. -/
theorem empty_base_keeps_ordinal :
    (UpdatePreviewList (hostOf [assetRock, assetGrass]) (moduleOf "")).PreviewItems =
      [{ DisplayName := "SM__01", Asset := assetRock },
       { DisplayName := "M__02", Asset := assetGrass }] ∧
    ¬ ∀ item ∈ (UpdatePreviewList (hostOf [assetRock, assetGrass]) (moduleOf "")).PreviewItems,
        item.DisplayName = GetPrefixForAsset item.Asset := by
  decide

/-- C6, amended: with an empty base name (an empty or missing text box) and `N ≥ 1` selected
assets, entry `i` of the preview is proposed `prefixFor(asset)` alone when `N = 1`, and
`prefixFor(asset)` followed by `"_" + zeroPad(i+1, 2)` when `N > 1`. -/
theorem empty_base_names (host : Host) (m : FUI_WorkEditorModule)
    (htext : m.RenameTextBox = some "" ∨ m.RenameTextBox = none)
    (hsel : host.SelectedAssets ≠ []) (i : Nat) (item : FPreviewItem)
    (hitem : (UpdatePreviewList host m).PreviewItems[i]? = some item) :
    host.SelectedAssets[i]? = some item.Asset ∧
    item.DisplayName =
      (if host.SelectedAssets.length > 1
        then GetPrefixForAsset item.Asset ++ "_" ++ zeroPad2 (i + 1)
        else GetPrefixForAsset item.Asset) := by
  have hitems : (UpdatePreviewList host m).PreviewItems =
      (host.SelectedAssets.enumFrom 0).map
        (fun p => { DisplayName := proposedName host.SelectedAssets.length "" p.2 p.1,
                    Asset := p.2 }) := by
    rcases htext with h | h
    · exact preview_items_eq host m "" hsel h
    · exact preview_items_eq_none host m hsel h
  rw [hitems, preview_getElem] at hitem
  cases hs : host.SelectedAssets[i]? with
  | none => simp [hs] at hitem
  | some a =>
    rw [hs] at hitem
    simp only [Option.map_some', Option.some.injEq] at hitem
    subst hitem
    refine ⟨rfl, ?_⟩
    simp only [proposedName, String.append_empty]

/-- Witness of C6 (amended): a single texture with an empty base name is proposed `T_`. -/
theorem empty_base_names_witness :
    ((moduleOf "").RenameTextBox = some "" ∨ (moduleOf "").RenameTextBox = none) ∧
    (hostOf [assetWood]).SelectedAssets ≠ [] ∧
    (UpdatePreviewList (hostOf [assetWood]) (moduleOf "")).PreviewItems[0]? =
      some { DisplayName := "T_", Asset := assetWood } ∧
    ({ DisplayName := "T_", Asset := assetWood } : FPreviewItem).DisplayName =
      (if (hostOf [assetWood]).SelectedAssets.length > 1
        then GetPrefixForAsset assetWood ++ "_" ++ zeroPad2 (0 + 1)
        else GetPrefixForAsset assetWood) :=
  ⟨Or.inl rfl, by decide, by decide,
    (empty_base_names (hostOf [assetWood]) (moduleOf "") (Or.inl rfl) (by decide) 0
      { DisplayName := "T_", Asset := assetWood } (by decide)).2⟩

/-- C7: `RenameSelectedAssets` hands nothing to the host rename operation when the selection
is empty or the base name is empty; otherwise it hands over one array with exactly one request
per selected asset, in selection order. The "Rename Assets" button is enabled exactly when
the base name is non-empty and the selection is non-empty. -/
theorem commit_validates_inputs (host : Host) (m : FUI_WorkEditorModule) :
    (host.SelectedAssets = [] → RenameSelectedAssets host m = some []) ∧
    (m.RenameTextBox = some "" → RenameSelectedAssets host m = some []) ∧
    (∀ baseName, m.RenameTextBox = some baseName → baseName ≠ "" → host.SelectedAssets ≠ [] →
      ∃ requests, RenameSelectedAssets host m = some [requests] ∧
        requests.map (fun r => r.Asset) = host.SelectedAssets) ∧
    (RenameButton_IsEnabled host m = true ↔
      (∃ baseName, m.RenameTextBox = some baseName ∧ baseName ≠ "") ∧
        host.SelectedAssets ≠ []) := by
  refine ⟨?_, ?_, ?_, ?_⟩
  · intro h
    simp [RenameSelectedAssets, h]
  · intro h
    simp [RenameSelectedAssets, h, (isEmpty_iff "").2 rfl]
  · intro baseName htext hbase hsel
    have hlen : ¬ host.SelectedAssets.length = 0 := fun h => hsel (List.length_eq_zero.1 h)
    have hne : FString.IsEmpty baseName = false := by
      cases hb : FString.IsEmpty baseName with
      | false => rfl
      | true => exact absurd ((isEmpty_iff baseName).1 hb) hbase
    refine ⟨_, by simp [RenameSelectedAssets, hlen, htext, hne]; rfl, ?_⟩
    rw [rename_loop_eq]
    simp [Function.comp_def, List.enumFrom_map_snd]
  · unfold RenameButton_IsEnabled
    cases ht : m.RenameTextBox with
    | none => simp
    | some text =>
      by_cases he : text = ""
      · simp [he, (isEmpty_iff "").2 rfl]
      · have hne : FString.IsEmpty text = false := by
          cases hb : FString.IsEmpty text with
          | false => rfl
          | true => exact absurd ((isEmpty_iff text).1 hb) he
        simp [hne, he, List.length_pos]

/-- Witness of C7: with `Rock`, `M_Grass` selected and base name `Hero` two requests are
handed over, for `Rock` and `M_Grass` in this order; with nothing selected, none. -/
theorem commit_validates_inputs_witness :
    (hostOf []).SelectedAssets = [] ∧
    RenameSelectedAssets (hostOf []) (moduleOf "Hero") = some [] ∧
    (moduleOf "").RenameTextBox = some "" ∧
    RenameSelectedAssets (hostOf [assetRock]) (moduleOf "") = some [] ∧
    (moduleOf "Hero").RenameTextBox = some "Hero" ∧ "Hero" ≠ "" ∧
    (hostOf [assetRock, assetGrass]).SelectedAssets ≠ [] ∧
    ∃ requests,
      RenameSelectedAssets (hostOf [assetRock, assetGrass]) (moduleOf "Hero") = some [requests] ∧
      requests.map (fun r => r.Asset) = (hostOf [assetRock, assetGrass]).SelectedAssets :=
  ⟨rfl, (commit_validates_inputs (hostOf []) (moduleOf "Hero")).1 rfl, rfl,
    (commit_validates_inputs (hostOf [assetRock]) (moduleOf "")).2.1 rfl, rfl, by decide,
    by decide,
    (commit_validates_inputs (hostOf [assetRock, assetGrass]) (moduleOf "Hero")).2.2.1 "Hero" rfl
      (by decide) (by decide)⟩

/-- C8: every name the commit loop or the preview proposes starts with the prefix of its
asset; an asset whose name is replaced by the proposed name (at any object path) satisfies
`HasCorrectPrefix`, and no scan, over any population, reports it. -/
theorem proposed_name_accepted (host : Host) (m : FUI_WorkEditorModule)
    (baseName : String) :
    (∀ r ∈ RenameSelectedAssets.loop host host.SelectedAssets baseName host.SelectedAssets 0 [],
      (∃ rest, r.NewName = GetPrefixForAsset r.Asset ++ rest) ∧
      (∀ path, HasCorrectPrefix { r.Asset with AssetName := r.NewName, ObjectPath := path }
        = true) ∧
      (∀ path (host2 : Host) (m2 : FUI_WorkEditorModule),
        ∀ row ∈ (ScanForMissingPrefixes host2 m2).PreviewItems,
          row.Asset ≠ { r.Asset with AssetName := r.NewName, ObjectPath := path })) ∧
    (∀ item ∈ (UpdatePreviewList host m).PreviewItems,
      (∃ rest, item.DisplayName = GetPrefixForAsset item.Asset ++ rest) ∧
      (∀ path,
        HasCorrectPrefix { item.Asset with AssetName := item.DisplayName, ObjectPath := path }
          = true) ∧
      (∀ path (host2 : Host) (m2 : FUI_WorkEditorModule),
        ∀ row ∈ (ScanForMissingPrefixes host2 m2).PreviewItems,
          row.Asset ≠
            { item.Asset with AssetName := item.DisplayName, ObjectPath := path })) := by
  have key : ∀ (a : FAssetData) (name : String),
      (∃ rest, name = GetPrefixForAsset a ++ rest) →
      (∃ rest, name = GetPrefixForAsset a ++ rest) ∧
      (∀ path, HasCorrectPrefix { a with AssetName := name, ObjectPath := path } = true) ∧
      (∀ path (host2 : Host) (m2 : FUI_WorkEditorModule),
        ∀ row ∈ (ScanForMissingPrefixes host2 m2).PreviewItems,
          row.Asset ≠ { a with AssetName := name, ObjectPath := path }) := by
    intro a name hex
    obtain ⟨rest, hrest⟩ := hex
    refine ⟨⟨rest, hrest⟩, fun path => renamed_accepted a name path rest hrest, ?_⟩
    intro path host2 m2 row hrow heq
    have h1 := scan_rows_rejected host2 m2 row hrow
    rw [heq, renamed_accepted a name path rest hrest] at h1
    exact absurd h1 (by decide)
  constructor
  · intro r hr
    rw [rename_loop_eq] at hr
    simp only [List.nil_append, List.mem_map] at hr
    obtain ⟨p, _, rfl⟩ := hr
    exact key _ _ (proposedName_starts _ _ _ _)
  · intro item hitem
    by_cases hsel : host.SelectedAssets = []
    · have hit : item = { DisplayName := "No asset selected.", Asset := FAssetData.empty } := by
        simpa [UpdatePreviewList, hsel] using hitem
      subst hit
      exact key _ _ ⟨"No asset selected.", by decide⟩
    · have hitems : ∃ B, (UpdatePreviewList host m).PreviewItems =
          (host.SelectedAssets.enumFrom 0).map
            (fun p => { DisplayName := proposedName host.SelectedAssets.length B p.2 p.1,
                        Asset := p.2 }) := by
        cases ht : m.RenameTextBox with
        | none => exact ⟨"", preview_items_eq_none host m hsel ht⟩
        | some B => exact ⟨B, preview_items_eq host m B hsel ht⟩
      obtain ⟨B, hB⟩ := hitems
      rw [hB] at hitem
      simp only [List.mem_map] at hitem
      obtain ⟨p, _, rfl⟩ := hitem
      exact key _ _ (proposedName_starts _ _ _ _)

/-- C9: in a batch of `N > 1` assets, entries at different indices never receive the same
proposed name, in the preview and in the commit loop alike, for any mix of asset types, any
base name and any batch size. -/
theorem proposed_names_distinct (host : Host) (m : FUI_WorkEditorModule) (baseName : String)
    (i j : Nat) (hN : 1 < host.SelectedAssets.length) (hij : i ≠ j) :
    (∀ x y, (UpdatePreviewList host m).PreviewItems[i]? = some x →
      (UpdatePreviewList host m).PreviewItems[j]? = some y → x.DisplayName ≠ y.DisplayName) ∧
    (∀ r s,
      (RenameSelectedAssets.loop host host.SelectedAssets baseName host.SelectedAssets 0
        [])[i]? = some r →
      (RenameSelectedAssets.loop host host.SelectedAssets baseName host.SelectedAssets 0
        [])[j]? = some s → r.NewName ≠ s.NewName) := by
  have hsel : host.SelectedAssets ≠ [] := by
    intro h
    rw [h] at hN
    simp at hN
  constructor
  · have hitems : ∃ B, (UpdatePreviewList host m).PreviewItems =
        (host.SelectedAssets.enumFrom 0).map
          (fun p => { DisplayName := proposedName host.SelectedAssets.length B p.2 p.1,
                      Asset := p.2 }) := by
      cases ht : m.RenameTextBox with
      | none => exact ⟨"", preview_items_eq_none host m hsel ht⟩
      | some B => exact ⟨B, preview_items_eq host m B hsel ht⟩
    obtain ⟨B, hB⟩ := hitems
    intro x y hx hy hxy
    rw [hB, preview_getElem] at hx hy
    cases hi : host.SelectedAssets[i]? with
    | none => simp [hi] at hx
    | some a =>
      cases hj : host.SelectedAssets[j]? with
      | none => simp [hj] at hy
      | some b =>
        rw [hi] at hx
        rw [hj] at hy
        simp only [Option.map_some', Option.some.injEq] at hx hy
        subst hx
        subst hy
        exact hij (proposedName_injective _ B a b i j hN hxy)
  · intro r s hr hs hrs
    rw [rename_loop_eq, List.nil_append, rename_getElem] at hr hs
    cases hi : host.SelectedAssets[i]? with
    | none => simp [hi] at hr
    | some a =>
      cases hj : host.SelectedAssets[j]? with
      | none => simp [hj] at hs
      | some b =>
        rw [hi] at hr
        rw [hj] at hs
        simp only [Option.map_some', Option.some.injEq] at hr hs
        subst hr
        subst hs
        exact hij (proposedName_injective _ baseName a b i j hN hrs)

/-- Witness of C9: for `Rock`, `M_Grass` with base name `Hero` the two rows of the preview
carry different names. -/
theorem proposed_names_distinct_witness :
    1 < (hostOf [assetRock, assetGrass]).SelectedAssets.length ∧ (0 : Nat) ≠ 1 ∧
    (UpdatePreviewList (hostOf [assetRock, assetGrass]) (moduleOf "Hero")).PreviewItems[0]? =
      some { DisplayName := "SM_Hero_01", Asset := assetRock } ∧
    (UpdatePreviewList (hostOf [assetRock, assetGrass]) (moduleOf "Hero")).PreviewItems[1]? =
      some { DisplayName := "M_Hero_02", Asset := assetGrass } ∧
    ({ DisplayName := "SM_Hero_01", Asset := assetRock } : FPreviewItem).DisplayName ≠
      ({ DisplayName := "M_Hero_02", Asset := assetGrass } : FPreviewItem).DisplayName :=
  ⟨by decide, by decide, by decide, by decide,
    (proposed_names_distinct (hostOf [assetRock, assetGrass]) (moduleOf "Hero") "Hero" 0 1
      (by decide) (by decide)).1 _ _ (by decide) (by decide)⟩

/-- Witness of C8: the commit loop proposes `SM_Hero` for the static mesh `Rock`; renamed
so, the asset satisfies `HasCorrectPrefix`. -/
theorem proposed_name_accepted_witness :
    ({ Asset := assetRock, NewPackagePath := assetRock.ObjectPath, NewName := "SM_Hero" }
        : FAssetRenameData) ∈
      RenameSelectedAssets.loop (hostOf [assetRock]) (hostOf [assetRock]).SelectedAssets "Hero"
        (hostOf [assetRock]).SelectedAssets 0 [] ∧
    HasCorrectPrefix { assetRock with AssetName := "SM_Hero", ObjectPath := "/Game/SM_Hero" }
      = true :=
  ⟨by decide,
    ((proposed_name_accepted (hostOf [assetRock]) (moduleOf "Hero") "Hero").1
      { Asset := assetRock, NewPackagePath := assetRock.ObjectPath, NewName := "SM_Hero" }
      (by decide)).2.1 "/Game/SM_Hero"⟩

end Renamer
